import Mathlib

/-!
Verification of the module linking and load-order engine of the exby build tool.

The embedding follows the two source files:
* `src/bin/exby.js` — the build script: the identifier allocator
  `globalExportsVariableName` (lines 15-36), the load-order flattening
  `flatImportList` (lines 232-236), the entry lookup for the dependency map
  (lines 238-241), the manifest rewrite loop with its first-occurrence
  deduplication (lines 247-260), and the single-output check of the IIFE
  transform (lines 220-222).
* `src/src/babelPlugin.js` — the scope rewriter plugin: the identifier
  generator `makeIdentifierGenerator` (lines 15-30) and the export-slot
  initialization template `exportArgumentTemplate` (lines 58-60).

Javascript `Map`s are embedded as insertion-ordered association lists, chunk
records as a structure with the fields the traversed code reads, and the two
unbounded loops (the collision-retry loop of the allocator and the
recursive flattening) as step-indexed functions returning `none` when the
step budget runs out, so that divergence is observable rather than assumed
away.
-/

namespace Exby

/-! ## Identifier allocator -/

/-- Characters kept unchanged by the sanitization in `globalExportsVariableName`
(src/bin/exby.js line 28) and `makeIdentifierGenerator`
(src/src/babelPlugin.js line 21): the regex character class `[a-z0-9_]` with
the case-insensitive flag. -/
def isIdentChar (c : Char) : Bool :=
  c.isLower || c.isUpper || c.isDigit || c == '_'

/-- The `replace(/[^a-z0-9_]/gi, '_')` call: every character outside the class
becomes an underscore. -/
def sanitize (s : String) : String :=
  ⟨s.data.map (fun c => if isIdentChar c then c else '_')⟩

/-- Length of the longest cached value (`0` for an empty cache); bounds the
number of iterations of the collision-retry loop. -/
def maxLen (vals : List String) : Nat :=
  vals.foldr (fun s m => max s.length m) 0

/-- The collision-retry loop of the allocator,
`while ([...cache.values()].some(val => val === name)) name += '_';`
(src/bin/exby.js lines 30-32, src/src/babelPlugin.js lines 23-25), with an
explicit iteration budget: one unit of fuel is spent per loop-condition test,
and `none` means the budget ran out before the loop exited. -/
def bumpFuel : Nat → List String → String → Option String
  | 0, _, _ => none
  | f + 1, vals, name =>
    if name ∈ vals then bumpFuel f vals (name ++ "_") else some name

/-- The collision-retry loop as a total function: `maxLen vals + 2` tests
always suffice (theorem `collision_loop_terminates` below). -/
def bump (vals : List String) (name : String) : String :=
  (bumpFuel (maxLen vals + 2) vals name).getD name

/-- `[...cache.values()]`: a `Map` iterates values in key insertion order. -/
def cacheValues (cache : List (String × String)) : List String :=
  cache.map Prod.snd

/-- Shallow embedding of the allocator body shared by
`globalExportsVariableName` (src/bin/exby.js lines 20-36) and the closure
returned by `makeIdentifierGenerator` (src/src/babelPlugin.js lines 15-30),
with the cache passed explicitly and the two fixed name parts as parameters.
The cache is the `Map` as an insertion-ordered association list; `find?` on
the first component is `Map.get`, and appending is `Map.set` of a key that is
not yet present.  (babelPlugin's cached-value check `if (existing)` coincides
with exby's `existing != null` whenever every cached value is a nonempty
string, which holds for every nonempty prefix, including both instantiations
appearing in this repository.) -/
def allocate (pfx sfx : String) (cache : List (String × String)) (key : String) :
    String × List (String × String) :=
  match cache.find? (fun e => e.1 == key) with
  | some e => (e.2, cache)
  | none =>
    (bump (cacheValues cache) (pfx ++ sanitize key ++ sfx),
     cache ++ [(key, bump (cacheValues cache) (pfx ++ sanitize key ++ sfx))])

/-- `globalExportsVariableName` (src/bin/exby.js line 28): the allocator with
the fixed parts `__EXBY_MODULE__` and `__`. -/
def globalExportsVariableName (cache : List (String × String)) (key : String) :
    String × List (String × String) :=
  allocate "__EXBY_MODULE__" "__" cache key

/-- Run a sequence of allocations starting from a given cache state. -/
def allocsFrom (pfx sfx : String) (cache : List (String × String))
    (keys : List String) : List (String × String) :=
  keys.foldl (fun c k => (allocate pfx sfx c k).2) cache

/-- Cache state of one build after allocating the given keys in order,
starting from the empty cache that src/bin/exby.js line 15 initializes. -/
def buildCache (keys : List String) : List (String × String) :=
  allocsFrom "__EXBY_MODULE__" "__" [] keys

/-- Characters that may begin a Javascript identifier. -/
def isIdentStart (c : Char) : Bool :=
  c.isLower || c.isUpper || c == '_' || c == '$'

/-- Javascript reserved words (and the three value keywords), none of which is
a valid identifier. -/
def reservedWords : List String :=
  ["await", "break", "case", "catch", "class", "const", "continue", "debugger",
   "default", "delete", "do", "else", "enum", "export", "extends", "false",
   "finally", "for", "function", "if", "implements", "import", "in",
   "instanceof", "interface", "let", "new", "null", "package", "private",
   "protected", "public", "return", "static", "super", "switch", "this",
   "throw", "true", "typeof", "var", "void", "while", "with", "yield"]

/-- Character-level identifier shape: nonempty, a valid start character, and
identifier characters (or `$`) throughout. -/
def validIdentCore (l : List Char) : Bool :=
  match l with
  | [] => false
  | c :: cs => isIdentStart c && cs.all (fun x => isIdentChar x || x == '$')

/-- A valid Javascript identifier: well-shaped and not a reserved word. -/
def validIdent (s : String) : Bool :=
  validIdentCore s.data && !(decide (s ∈ reservedWords))

theorem le_maxLen {vals : List String} {s : String} (h : s ∈ vals) :
    s.length ≤ maxLen vals := by
  induction vals with
  | nil => cases h
  | cons a l ih =>
    rcases List.mem_cons.mp h with rfl | h
    · exact le_max_left _ _
    · exact le_trans (ih h) (le_max_right _ _)

theorem bumpFuel_isSome_of_lt :
    ∀ (f : Nat) (vals : List String) (name : String),
      maxLen vals + 1 - name.length < f → (bumpFuel f vals name).isSome = true := by
  intro f
  induction f with
  | zero => intro vals name h; exact absurd h (Nat.not_lt_zero _)
  | succ f ih =>
    intro vals name h
    rw [bumpFuel]
    by_cases hm : name ∈ vals
    · rw [if_pos hm]
      apply ih
      have h1 : name.length ≤ maxLen vals := le_maxLen hm
      have h2 : (name ++ "_").length = name.length + 1 := by
        rw [String.length_append]
        rfl
      omega
    · rw [if_neg hm]; rfl

theorem bumpFuel_isSome (vals : List String) (name : String) :
    (bumpFuel (maxLen vals + 2) vals name).isSome = true :=
  bumpFuel_isSome_of_lt _ _ _ (by omega)

theorem bumpFuel_not_mem :
    ∀ {f : Nat} {vals : List String} {name r : String},
      bumpFuel f vals name = some r → r ∉ vals := by
  intro f
  induction f with
  | zero => intro vals name r h; exact absurd h (by rw [bumpFuel]; exact Option.noConfusion)
  | succ f ih =>
    intro vals name r h
    rw [bumpFuel] at h
    by_cases hm : name ∈ vals
    · rw [if_pos hm] at h; exact ih h
    · rw [if_neg hm] at h
      cases h
      exact hm

theorem bump_not_mem (vals : List String) (name : String) : bump vals name ∉ vals := by
  have h := bumpFuel_isSome vals name
  obtain ⟨r, hr⟩ := Option.isSome_iff_exists.mp h
  rw [bump, hr]
  exact bumpFuel_not_mem hr

/-- Claim C10: the collision-retry loop of the allocator terminates for every
candidate name and every cache state: `maxLen vals + 2` loop-condition tests
are always enough to reach a candidate not among the cached values, because
each iteration lengthens the candidate by one and no cached value is longer
than `maxLen vals`. -/
theorem collision_loop_terminates (vals : List String) (name : String) :
    ∃ r, bumpFuel (maxLen vals + 2) vals name = some r ∧ r ∉ vals := by
  obtain ⟨r, hr⟩ := Option.isSome_iff_exists.mp (bumpFuel_isSome vals name)
  exact ⟨r, hr, bumpFuel_not_mem hr⟩

theorem find?_append_left {α : Type} {p : α → Bool} {l₁ l₂ : List α} {e : α}
    (h : List.find? p l₁ = some e) : List.find? p (l₁ ++ l₂) = some e := by
  induction l₁ with
  | nil => exact absurd h Option.noConfusion
  | cons a l ih =>
    rw [List.cons_append, List.find?]
    rw [List.find?] at h
    by_cases hp : p a
    · rw [hp] at h ⊢; exact h
    · rw [Bool.eq_false_iff.mpr hp] at h ⊢
      exact ih h

theorem find?_append_none {α : Type} {p : α → Bool} {l₁ l₂ : List α}
    (h : List.find? p l₁ = none) : List.find? p (l₁ ++ l₂) = List.find? p l₂ := by
  induction l₁ with
  | nil => rfl
  | cons a l ih =>
    rw [List.find?] at h
    rw [List.cons_append, List.find?]
    by_cases hp : p a
    · rw [hp] at h; exact absurd h Option.noConfusion
    · rw [Bool.eq_false_iff.mpr hp] at h ⊢
      exact ih h

theorem allocate_lookup (pfx sfx : String) (cache : List (String × String))
    (k : String) :
    ((allocate pfx sfx cache k).2).find? (fun e => e.1 == k)
      = some (k, (allocate pfx sfx cache k).1) := by
  rw [allocate]
  cases hf : cache.find? (fun e => e.1 == k) with
  | some e =>
    have he : e.1 = k := by
      have := List.find?_some hf
      exact eq_of_beq this
    simp only
    rw [hf]
    congr 1
    exact Prod.ext he rfl
  | none =>
    simp only
    rw [find?_append_none hf, List.find?]
    have : ((k, bump (cacheValues cache) (pfx ++ sanitize k ++ sfx)).1 == k) = true := by
      simp
    rw [this]

theorem allocate_preserves_lookup (pfx sfx : String)
    (cache : List (String × String)) (k k' : String) (e : String × String)
    (h : cache.find? (fun x => x.1 == k) = some e) :
    ((allocate pfx sfx cache k').2).find? (fun x => x.1 == k) = some e := by
  rw [allocate]
  cases hf : cache.find? (fun x => x.1 == k') with
  | some e' => exact h
  | none => exact find?_append_left h

theorem allocsFrom_preserves_lookup (pfx sfx : String) (keys : List String) :
    ∀ (cache : List (String × String)) (k : String) (e : String × String),
      cache.find? (fun x => x.1 == k) = some e →
      (allocsFrom pfx sfx cache keys).find? (fun x => x.1 == k) = some e := by
  induction keys with
  | nil => intro cache k e h; exact h
  | cons a ks ih =>
    intro cache k e h
    exact ih _ _ _ (allocate_preserves_lookup pfx sfx cache k a e h)

/-- Claim C6: the allocator is idempotent per key within one build: once a key
has been allocated, allocating it again at any later point of the build (any
number of other allocations in between) returns the identical string. -/
theorem allocate_idempotent (pfx sfx : String) (cache : List (String × String))
    (laterKeys : List String) (k : String) :
    (allocate pfx sfx
        (allocsFrom pfx sfx (allocate pfx sfx cache k).2 laterKeys) k).1
      = (allocate pfx sfx cache k).1 := by
  have h := allocsFrom_preserves_lookup pfx sfx laterKeys _ k _
    (allocate_lookup pfx sfx cache k)
  conv_lhs => rw [allocate]
  rw [h]

theorem reserved_no_underscore_head :
    ∀ w ∈ reservedWords, w.data.head? ≠ some '_' := by decide

theorem validIdent_of_underscore_head {s : String} {t : List Char}
    (hd : s.data = '_' :: t) (hall : ∀ c ∈ s.data, isIdentChar c = true) :
    validIdent s = true := by
  rw [validIdent, hd]
  rw [Bool.and_eq_true]
  constructor
  · simp only [validIdentCore]
    rw [Bool.and_eq_true]
    refine ⟨rfl, ?_⟩
    rw [List.all_eq_true]
    intro x hx
    rw [Bool.or_eq_true]
    exact Or.inl (hall x (hd ▸ List.mem_cons_of_mem _ hx))
  · have hns : s ∉ reservedWords := fun hmem =>
      reserved_no_underscore_head s hmem (by rw [hd]; rfl)
    simp [hns]

theorem bumpFuel_underscore_inv :
    ∀ {f : Nat} {vals : List String} {name r : String} {t : List Char},
      name.data = '_' :: t → (∀ c ∈ name.data, isIdentChar c = true) →
      bumpFuel f vals name = some r →
      ∃ t', r.data = '_' :: t' ∧ ∀ c ∈ r.data, isIdentChar c = true := by
  intro f
  induction f with
  | zero =>
    intro vals name r t _ _ h
    exact absurd h (by rw [bumpFuel]; exact Option.noConfusion)
  | succ f ih =>
    intro vals name r t hd hall h
    rw [bumpFuel] at h
    by_cases hm : name ∈ vals
    · rw [if_pos hm] at h
      have hd' : (name ++ "_").data = '_' :: (t ++ ['_']) := by
        rw [String.data_append, hd]
        rfl
      have hall' : ∀ c ∈ (name ++ "_").data, isIdentChar c = true := by
        intro c hc
        rw [String.data_append] at hc
        rcases List.mem_append.mp hc with hc | hc
        · exact hall c hc
        · have : c = '_' := by
            cases hc with
            | head => rfl
            | tail _ h => cases h
          rw [this]
          rfl
      exact ih hd' hall' h
    · rw [if_neg hm] at h
      cases h
      exact ⟨t, hd, hall⟩

theorem validIdent_bump {vals : List String} {name : String} {t : List Char}
    (hd : name.data = '_' :: t) (hall : ∀ c ∈ name.data, isIdentChar c = true) :
    validIdent (bump vals name) = true := by
  obtain ⟨r, hr⟩ := Option.isSome_iff_exists.mp (bumpFuel_isSome vals name)
  rw [bump, hr, Option.getD_some]
  obtain ⟨t', hd', hall'⟩ := bumpFuel_underscore_inv hd hall hr
  exact validIdent_of_underscore_head hd' hall'

theorem derived_data (key : String) :
    ("__EXBY_MODULE__" ++ sanitize key ++ "__").data
      = '_' :: (("_EXBY_MODULE__".data ++ (sanitize key).data) ++ "__".data) := by
  rw [String.data_append, String.data_append]
  rw [show ("__EXBY_MODULE__" : String).data = '_' :: "_EXBY_MODULE__".data from rfl]
  rfl

theorem derived_chars (key : String) :
    ∀ c ∈ ("__EXBY_MODULE__" ++ sanitize key ++ "__").data,
      isIdentChar c = true := by
  intro c hc
  rw [String.data_append, String.data_append] at hc
  rcases List.mem_append.mp hc with hc | hc
  · rcases List.mem_append.mp hc with hc | hc
    · have hp : ∀ x ∈ ("__EXBY_MODULE__" : String).data, isIdentChar x = true := by
        decide
      exact hp c hc
    · obtain ⟨x, _, rfl⟩ := List.mem_map.mp hc
      by_cases h : isIdentChar x
      · rw [if_pos h]; exact h
      · rw [if_neg h]; rfl
  · have hp : ∀ x ∈ ("__" : String).data, isIdentChar x = true := by decide
    exact hp c hc

/-- The invariant of the allocator cache across one build: distinct keys,
distinct values, and every value a valid Javascript identifier. -/
def CacheInv (cache : List (String × String)) : Prop :=
  (cache.map Prod.fst).Nodup ∧ (cacheValues cache).Nodup ∧
    ∀ v ∈ cacheValues cache, validIdent v = true

theorem globalExportsVariableName_inv {cache : List (String × String)}
    (k : String) (h : CacheInv cache) :
    CacheInv (globalExportsVariableName cache k).2 := by
  obtain ⟨hk, hv, hval⟩ := h
  rw [globalExportsVariableName, allocate]
  cases hf : cache.find? (fun e => e.1 == k) with
  | some e => exact ⟨hk, hv, hval⟩
  | none =>
    simp only
    have hknew : ∀ e ∈ cache, e.1 ≠ k := by
      intro e he
      have := List.find?_eq_none.mp hf e he
      simpa using this
    refine ⟨?_, ?_, ?_⟩
    · rw [List.map_append, List.nodup_append]
      refine ⟨hk, List.nodup_singleton _, ?_⟩
      intro a ha hb
      obtain ⟨e, he, rfl⟩ := List.mem_map.mp ha
      have : e.1 = k := by
        cases hb with
        | head => rfl
        | tail _ h => cases h
      exact hknew e he this
    · rw [cacheValues, List.map_append, List.nodup_append]
      refine ⟨hv, List.nodup_singleton _, ?_⟩
      intro a ha hb
      have : a = bump (cacheValues cache) ("__EXBY_MODULE__" ++ sanitize k ++ "__") := by
        cases hb with
        | head => rfl
        | tail _ h => cases h
      rw [this] at ha
      exact bump_not_mem _ _ ha
    · intro v hv'
      rw [cacheValues, List.map_append] at hv'
      rcases List.mem_append.mp hv' with hv' | hv'
      · exact hval v hv'
      · have : v = bump (cacheValues cache) ("__EXBY_MODULE__" ++ sanitize k ++ "__") := by
          cases hv' with
          | head => rfl
          | tail _ h => cases h
        rw [this]
        exact validIdent_bump (derived_data k) (derived_chars k)

theorem allocate_mem_self (pfx sfx : String) (cache : List (String × String))
    (k : String) :
    (k, (allocate pfx sfx cache k).1) ∈ (allocate pfx sfx cache k).2 :=
  List.mem_of_find?_eq_some (allocate_lookup pfx sfx cache k)

theorem allocate_mono (pfx sfx : String) (cache : List (String × String))
    (k : String) : ∀ e ∈ cache, e ∈ (allocate pfx sfx cache k).2 := by
  intro e he
  rw [allocate]
  cases hf : cache.find? (fun x => x.1 == k) with
  | some _ => exact he
  | none => exact List.mem_append_left _ he

theorem snd_inj {cache : List (String × String)}
    (h : (cacheValues cache).Nodup) :
    ∀ p ∈ cache, ∀ q ∈ cache, p.2 = q.2 → p = q := by
  induction cache with
  | nil => intro p hp; cases hp
  | cons a l ih =>
    rw [cacheValues, List.map_cons, List.nodup_cons] at h
    obtain ⟨ha, hl⟩ := h
    intro p hp q hq hpq
    rcases List.mem_cons.mp hp with hpa | hp
    · rcases List.mem_cons.mp hq with hqa | hq
      · rw [hpa, hqa]
      · exfalso
        apply ha
        rw [hpa] at hpq
        rw [hpq]
        exact List.mem_map_of_mem Prod.snd hq
    · rcases List.mem_cons.mp hq with hqa | hq
      · exfalso
        apply ha
        rw [hqa] at hpq
        rw [← hpq]
        exact List.mem_map_of_mem Prod.snd hp
      · exact ih (by rw [cacheValues]; exact hl) p hp q hq hpq

theorem globalExportsVariableName_valid {cache : List (String × String)}
    (k : String) (h : CacheInv cache) :
    validIdent (globalExportsVariableName cache k).1 = true := by
  rw [globalExportsVariableName, allocate]
  cases hf : cache.find? (fun e => e.1 == k) with
  | some e =>
    have he : e ∈ cache := List.mem_of_find?_eq_some hf
    exact h.2.2 e.2 (List.mem_map_of_mem Prod.snd he)
  | none =>
    exact validIdent_bump (derived_data k) (derived_chars k)

theorem exby_allocsFrom_inv :
    ∀ (keys : List String) (cache : List (String × String)),
      CacheInv cache → CacheInv (allocsFrom "__EXBY_MODULE__" "__" cache keys) := by
  intro keys
  induction keys with
  | nil => intro cache h; exact h
  | cons a ks ih =>
    intro cache h
    exact ih _ (globalExportsVariableName_inv a h)

theorem buildCache_inv (keys : List String) : CacheInv (buildCache keys) :=
  exby_allocsFrom_inv keys []
    ⟨List.nodup_nil, List.nodup_nil, fun v hv => absurd hv (List.not_mem_nil v)⟩

/-- Claim C4: within one build, any two allocations through the same allocator
instance for distinct nonempty chunk file names return distinct variable
names, and every returned name is a valid Javascript identifier.  The cache
state reached after any prior key sequence is covered by `buildCache`. -/
theorem globalExportsVariableName_distinct_and_valid
    (priorKeys : List String) (k₁ k₂ : String)
    (h₁ : k₁ ≠ "") (h₂ : k₂ ≠ "") (hne : k₁ ≠ k₂) :
    (globalExportsVariableName (buildCache priorKeys) k₁).1
      ≠ (globalExportsVariableName
          ((globalExportsVariableName (buildCache priorKeys) k₁).2) k₂).1
    ∧ validIdent ((globalExportsVariableName (buildCache priorKeys) k₁).1) = true
    ∧ validIdent ((globalExportsVariableName
          ((globalExportsVariableName (buildCache priorKeys) k₁).2) k₂).1) = true := by
  have inv0 := buildCache_inv priorKeys
  have inv1 := globalExportsVariableName_inv k₁ inv0
  have inv2 := globalExportsVariableName_inv k₂ inv1
  have m1 : (k₁, (globalExportsVariableName (buildCache priorKeys) k₁).1)
      ∈ (globalExportsVariableName (buildCache priorKeys) k₁).2 :=
    allocate_mem_self _ _ _ _
  have m1' : (k₁, (globalExportsVariableName (buildCache priorKeys) k₁).1)
      ∈ (globalExportsVariableName
          ((globalExportsVariableName (buildCache priorKeys) k₁).2) k₂).2 :=
    allocate_mono _ _ _ _ _ m1
  have m2 : (k₂, (globalExportsVariableName
          ((globalExportsVariableName (buildCache priorKeys) k₁).2) k₂).1)
      ∈ (globalExportsVariableName
          ((globalExportsVariableName (buildCache priorKeys) k₁).2) k₂).2 :=
    allocate_mem_self _ _ _ _
  refine ⟨?_, globalExportsVariableName_valid k₁ inv0,
    globalExportsVariableName_valid k₂ inv1⟩
  intro heq
  have := snd_inj inv2.2.1 _ m1' _ m2 heq
  exact hne (congrArg Prod.fst this)

/-- Witness for C4 at a concrete input. -/
theorem globalExportsVariableName_distinct_and_valid_witness :
    ("a.js" : String) ≠ "" ∧ ("b.js" : String) ≠ "" ∧ ("a.js" : String) ≠ "b.js"
    ∧ ((globalExportsVariableName (buildCache []) "a.js").1
        ≠ (globalExportsVariableName
            ((globalExportsVariableName (buildCache []) "a.js").2) "b.js").1
      ∧ validIdent ((globalExportsVariableName (buildCache []) "a.js").1) = true
      ∧ validIdent ((globalExportsVariableName
            ((globalExportsVariableName (buildCache []) "a.js").2) "b.js").1) = true) :=
  ⟨by decide, by decide, by decide,
    globalExportsVariableName_distinct_and_valid [] "a.js" "b.js"
      (by decide) (by decide) (by decide)⟩

/-- Claim C5, counterexample: the variable name returned for a chunk file name
is not a function of that file name alone.  When the sanitized forms of two
different keys collide, allocating the other key first changes the name this
key receives: allocating `a.b` before `a_b` yields a name for `a_b` different
from the one `a_b` receives when allocated first. -/
theorem allocate_depends_on_history :
    (globalExportsVariableName
        ((globalExportsVariableName [] "a.b").2) "a_b").1
      ≠ (globalExportsVariableName [] "a_b").1 := by decide

/-- Claim C5 as amended: the returned name is a function of the chunk file
name alone only in the collision-free case — whenever the key is not yet
cached and its derived name collides with no cached value, the allocator
returns exactly the derived name, independent of any allocation history. -/
theorem allocate_pure_when_no_collision (pfx sfx : String)
    (cache : List (String × String)) (k : String)
    (hk : cache.find? (fun e => e.1 == k) = none)
    (hc : pfx ++ sanitize k ++ sfx ∉ cacheValues cache) :
    (allocate pfx sfx cache k).1 = pfx ++ sanitize k ++ sfx := by
  rw [allocate, hk]
  simp only
  rw [bump]
  rw [show maxLen (cacheValues cache) + 2 = (maxLen (cacheValues cache) + 1) + 1 from rfl]
  rw [bumpFuel, if_neg hc]
  rfl

/-- Witness for the amended C5 at a concrete input. -/
theorem allocate_pure_when_no_collision_witness :
    ([] : List (String × String)).find? (fun e => e.1 == "x.js") = none
    ∧ "__EXBY_MODULE__" ++ sanitize "x.js" ++ "__" ∉ cacheValues []
    ∧ (allocate "__EXBY_MODULE__" "__" [] "x.js").1
        = "__EXBY_MODULE__" ++ sanitize "x.js" ++ "__" :=
  ⟨rfl, by decide,
    allocate_pure_when_no_collision "__EXBY_MODULE__" "__" [] "x.js" rfl (by decide)⟩

/-! ## First-occurrence deduplication -/

/-- `arr.filter((val, i, arr) => arr.indexOf(val) === i)`
(src/bin/exby.js lines 252 and 259): keep an element only if it has not
occurred at a smaller index.  `seen` accumulates the values already kept,
which are exactly the values already encountered. -/
def dedupFirstAux (seen : List String) : List String → List String
  | [] => []
  | x :: xs =>
    if x ∈ seen then dedupFirstAux seen xs else x :: dedupFirstAux (x :: seen) xs

/-- First-occurrence deduplication of a whole list. -/
def dedupFirst (l : List String) : List String := dedupFirstAux [] l

theorem dedupFirstAux_mem :
    ∀ {l seen : List String} {x : String},
      x ∈ dedupFirstAux seen l → x ∈ l ∧ x ∉ seen := by
  intro l
  induction l with
  | nil => intro seen x h; cases h
  | cons a as ih =>
    intro seen x h
    rw [dedupFirstAux] at h
    by_cases hm : a ∈ seen
    · rw [if_pos hm] at h
      obtain ⟨h1, h2⟩ := ih h
      exact ⟨List.mem_cons_of_mem _ h1, h2⟩
    · rw [if_neg hm] at h
      rcases List.mem_cons.mp h with rfl | h
      · exact ⟨List.mem_cons_self _ _, hm⟩
      · obtain ⟨h1, h2⟩ := ih h
        exact ⟨List.mem_cons_of_mem _ h1,
          fun hx => h2 (List.mem_cons_of_mem _ hx)⟩

theorem mem_dedupFirstAux :
    ∀ {l seen : List String} {x : String},
      x ∈ l → x ∉ seen → x ∈ dedupFirstAux seen l := by
  intro l
  induction l with
  | nil => intro seen x h; cases h
  | cons a as ih =>
    intro seen x h hs
    rw [dedupFirstAux]
    by_cases hm : a ∈ seen
    · rw [if_pos hm]
      rcases List.mem_cons.mp h with rfl | h
      · exact absurd hm hs
      · exact ih h hs
    · rw [if_neg hm]
      rcases List.mem_cons.mp h with rfl | h
      · exact List.mem_cons_self _ _
      · by_cases hxa : x = a
        · exact hxa ▸ List.mem_cons_self _ _
        · exact List.mem_cons_of_mem _
            (ih h (fun hx => (List.mem_cons.mp hx).elim hxa hs))

theorem dedupFirstAux_nodup :
    ∀ (l seen : List String), (dedupFirstAux seen l).Nodup := by
  intro l
  induction l with
  | nil => intro seen; exact List.nodup_nil
  | cons a as ih =>
    intro seen
    rw [dedupFirstAux]
    by_cases hm : a ∈ seen
    · rw [if_pos hm]; exact ih seen
    · rw [if_neg hm]
      rw [List.nodup_cons]
      refine ⟨fun h => ?_, ih (a :: seen)⟩
      exact (dedupFirstAux_mem h).2 (List.mem_cons_self a seen)

theorem dedupFirstAux_pairwise :
    ∀ (l seen : List String),
      (dedupFirstAux seen l).Pairwise (fun a b => l.indexOf a < l.indexOf b) := by
  intro l
  induction l with
  | nil => intro seen; exact List.Pairwise.nil
  | cons x xs ih =>
    intro seen
    rw [dedupFirstAux]
    by_cases hm : x ∈ seen
    · rw [if_pos hm]
      refine (ih seen).imp_of_mem ?_
      intro a b ha hb hab
      have hxa : x ≠ a := fun he => (dedupFirstAux_mem ha).2 (he ▸ hm)
      have hxb : x ≠ b := fun he => (dedupFirstAux_mem hb).2 (he ▸ hm)
      rw [List.indexOf_cons_ne _ hxa, List.indexOf_cons_ne _ hxb]
      exact Nat.succ_lt_succ hab
    · rw [if_neg hm]
      refine List.Pairwise.cons ?_ ?_
      · intro b hb
        have hxb : x ≠ b := fun he =>
          (dedupFirstAux_mem hb).2 (he ▸ List.mem_cons_self x seen)
        rw [List.indexOf_cons_self, List.indexOf_cons_ne _ hxb]
        exact Nat.succ_pos _
      · refine (ih (x :: seen)).imp_of_mem ?_
        intro a b ha hb hab
        have hxa : x ≠ a := fun he =>
          (dedupFirstAux_mem ha).2 (he ▸ List.mem_cons_self x seen)
        have hxb : x ≠ b := fun he =>
          (dedupFirstAux_mem hb).2 (he ▸ List.mem_cons_self x seen)
        rw [List.indexOf_cons_ne _ hxa, List.indexOf_cons_ne _ hxb]
        exact Nat.succ_lt_succ hab

theorem dedupFirst_nodup (l : List String) : (dedupFirst l).Nodup :=
  dedupFirstAux_nodup l []

theorem mem_dedupFirst {l : List String} {x : String} :
    x ∈ dedupFirst l ↔ x ∈ l :=
  ⟨fun h => (dedupFirstAux_mem h).1,
   fun h => mem_dedupFirstAux h (List.not_mem_nil x)⟩

theorem dedupFirst_pairwise (l : List String) :
    (dedupFirst l).Pairwise (fun a b => l.indexOf a < l.indexOf b) :=
  dedupFirstAux_pairwise l []

theorem dedupFirstAux_append_singleton :
    ∀ {l seen : List String} {x : String}, x ∉ l → x ∉ seen →
      dedupFirstAux seen (l ++ [x]) = dedupFirstAux seen l ++ [x] := by
  intro l
  induction l with
  | nil =>
    intro seen x _ hs
    simp [dedupFirstAux, hs]
  | cons a as ih =>
    intro seen x hl hs
    have hxa : x ≠ a := fun he => hl (he ▸ List.mem_cons_self a as)
    have hxas : x ∉ as := fun hx => hl (List.mem_cons_of_mem _ hx)
    rw [List.cons_append, dedupFirstAux, dedupFirstAux]
    by_cases hm : a ∈ seen
    · rw [if_pos hm, if_pos hm]
      exact ih hxas hs
    · rw [if_neg hm, if_neg hm]
      rw [ih hxas (fun hx => (List.mem_cons.mp hx).elim hxa hs)]
      rfl

/-! ## The manifest rewrite loop -/

/-- Look a manifest path up in the dependency map
(`dependencyMap[contentScript.js[i]]`, src/bin/exby.js lines 250 and 257);
`none` models the TypeError that spreading an absent entry would raise. -/
def lookupDeps (depMap : List (String × List String)) (k : String) :
    Option (List String) :=
  (depMap.find? (fun e => e.1 == k)).map Prod.snd

/-- `list.splice(i, 1, ...repl)`: replace the one element at index `i` by the
elements of `repl`. -/
def spliceAt (js : List String) (i : Nat) (repl : List String) : List String :=
  js.take i ++ repl ++ js.drop (i + 1)

/-- The rewrite loop of src/bin/exby.js lines 249-251 and 256-258: walk the
script list from the last index down to index 0 and splice each entry's
dependency list in place.  The numeric argument counts the indices still to
be processed; the loop starts at the list's length.  Splicing at index `i`
leaves all indices below `i` unchanged, which is why the reverse walk reads
the original entries. -/
def rewriteLoop (depMap : List (String × List String)) :
    List String → Nat → Option (List String)
  | js, 0 => some js
  | js, i + 1 =>
    match js[i]? with
    | none => none
    | some key =>
      match lookupDeps depMap key with
      | none => none
      | some deps => rewriteLoop depMap (spliceAt js i deps) i

/-- One context's script-list rewrite (src/bin/exby.js lines 247-260):
reverse-index in-place substitution followed by the first-occurrence
deduplication filter. -/
def expandScripts (depMap : List (String × List String)) (js : List String) :
    Option (List String) :=
  (rewriteLoop depMap js js.length).map dedupFirst

/-- Claim C3: for the script list `[A, B]` with flattened dependency lists
`A -> [x, A]` and `B -> [x, y, B]`, the entry rewriter produces exactly
`[x, A, y, B]`: the shared dependency `x` appears once, at its first required
position. -/
theorem expandScripts_shared_dependency :
    expandScripts [("A", ["x", "A"]), ("B", ["x", "y", "B"])] ["A", "B"]
      = some ["x", "A", "y", "B"] := by decide

/-! ## Chunk graph and load-order flattening -/

/-- A chunk record, with the fields of the Rollup output objects that
src/bin/exby.js lines 232-241 read: the generated output file name, the list
of imported file names, and the facade module id that links an entry chunk
back to its entry point. -/
structure Chunk where
  fileName : String
  imports : List String
  facadeModuleId : Option String := none
  deriving DecidableEq, Repr

/-- `codeSplitOutput.find(c => c.fileName === importee)`
(src/bin/exby.js line 234). -/
def findChunk (output : List Chunk) (name : String) : Option Chunk :=
  output.find? (fun c => c.fileName == name)

/-- Concatenate the results of an option-valued map, propagating `none`: the
`chunk.imports.map(...)` and `[].concat(...nestedImports)` pair of
src/bin/exby.js lines 234-235, fused. -/
def mapConcat (f : String → Option (List String)) :
    List String → Option (List String)
  | [] => some []
  | x :: xs =>
    match f x, mapConcat f xs with
    | some l, some ls => some (l ++ ls)
    | _, _ => none

/-- `flatImportList` (src/bin/exby.js lines 232-236), with an explicit
recursion budget: one unit of fuel is spent per recursion into a present
chunk, and `none` means the budget ran out (the source function recurses
without bound on a cyclic graph).  A missing chunk — `if (!chunk) return []`
— yields `[]` at any budget. -/
def flatImportListF (output : List Chunk) :
    Nat → Option Chunk → Option (List String)
  | _, none => some []
  | 0, some _ => none
  | fuel + 1, some c =>
    (mapConcat (fun imp => flatImportListF output fuel (findChunk output imp))
        c.imports).map
      (fun ls => ls ++ [c.fileName])

/-- The entry-chunk lookup of src/bin/exby.js line 239:
`codeSplitOutput.find(chunk => chunk.facadeModuleId === entryModuleID)`. -/
def findEntryChunk (output : List Chunk) (entryModuleID : String) : Option Chunk :=
  output.find? (fun c => c.facadeModuleId == some entryModuleID)

/-- Claim C9: applying the load-order flattening to a missing entry chunk (an
entry that produced no chunk in the graph) yields the empty list, at every
recursion budget and without any error. -/
theorem flatImportList_missing_entry (output : List Chunk) (fuel : Nat)
    (entryModuleID : String)
    (h : findEntryChunk output entryModuleID = none) :
    flatImportListF output fuel (findEntryChunk output entryModuleID)
      = some [] := by
  rw [h]
  cases fuel <;> rfl

/-- Witness for C9 at a concrete input. -/
theorem flatImportList_missing_entry_witness :
    findEntryChunk [] "missing" = none
    ∧ flatImportListF [] 0 (findEntryChunk [] "missing") = some [] :=
  ⟨rfl, flatImportList_missing_entry [] 0 "missing" rfl⟩

/-- Claim C2: the entry dependency list — the flattened import list after the
first-occurrence deduplication the manifest rewrite applies — contains no
file name twice, contains exactly the file names of the raw flattening, and
lists them in the order of their first occurrences. -/
theorem flatImportList_dedup_nodup (output : List Chunk) (fuel : Nat)
    (oc : Option Chunk) (raw : List String)
    (h : flatImportListF output fuel oc = some raw) :
    (dedupFirst raw).Nodup
    ∧ (∀ x, x ∈ dedupFirst raw ↔ x ∈ raw)
    ∧ (dedupFirst raw).Pairwise (fun a b => raw.indexOf a < raw.indexOf b) :=
  ⟨dedupFirst_nodup raw, fun _ => mem_dedupFirst, dedupFirst_pairwise raw⟩

/-- Witness for C2 at a concrete two-chunk graph. -/
theorem flatImportList_dedup_nodup_witness :
    flatImportListF [⟨"b.js", [], none⟩, ⟨"a.js", ["b.js"], some "A"⟩] 2
        (some ⟨"a.js", ["b.js"], some "A"⟩) = some ["b.js", "a.js"]
    ∧ ((dedupFirst ["b.js", "a.js"]).Nodup
      ∧ (∀ x, x ∈ dedupFirst ["b.js", "a.js"] ↔ x ∈ (["b.js", "a.js"] : List String))
      ∧ (dedupFirst ["b.js", "a.js"]).Pairwise
          (fun a b => (["b.js", "a.js"] : List String).indexOf a
            < (["b.js", "a.js"] : List String).indexOf b)) :=
  ⟨by decide,
    flatImportList_dedup_nodup [⟨"b.js", [], none⟩, ⟨"a.js", ["b.js"], some "A"⟩]
      2 (some ⟨"a.js", ["b.js"], some "A"⟩) ["b.js", "a.js"] (by decide)⟩

/-! ## Topological order of the flattened lists -/

/-- Direct import relation on file names: `a` imports `b` when the chunk the
graph lookup finds under the name `a` lists `b` among its imports. -/
def DirectImports (output : List Chunk) (a b : String) : Prop :=
  ∃ c, findChunk output a = some c ∧ b ∈ c.imports

/-- Transitive (one or more steps, so direct imports included) import
relation on file names. -/
def TransImports (output : List Chunk) : String → String → Prop :=
  Relation.TransGen (DirectImports output)

/-- A file name that the graph lookup resolves to a chunk. -/
def Resolves (output : List Chunk) (name : String) : Prop :=
  ∃ c, findChunk output name = some c

theorem find?_cons_pos {α : Type} (p : α → Bool) (a : α) (l : List α)
    (h : p a = true) : List.find? p (a :: l) = some a := by
  rw [List.find?, h]

theorem find?_cons_neg {α : Type} (p : α → Bool) (a : α) (l : List α)
    (h : p a = false) : List.find? p (a :: l) = List.find? p l := by
  rw [List.find?, h]

theorem findChunk_fileName {output : List Chunk} {n : String} {c : Chunk}
    (h : findChunk output n = some c) : c.fileName = n := by
  rw [findChunk] at h
  have h2 := List.find?_some h
  exact eq_of_beq h2

theorem findChunk_self {output : List Chunk}
    (hnd : (output.map Chunk.fileName).Nodup) {c : Chunk} (hc : c ∈ output) :
    findChunk output c.fileName = some c := by
  induction output with
  | nil => cases hc
  | cons d ds ih =>
    rw [List.map_cons, List.nodup_cons] at hnd
    obtain ⟨hd, hnd⟩ := hnd
    rw [findChunk]
    by_cases hpred : (d.fileName == c.fileName) = true
    · rw [find?_cons_pos (fun x => x.fileName == c.fileName) d ds hpred]
      rcases List.mem_cons.mp hc with rfl | hcds
      · rfl
      · exfalso
        apply hd
        rw [eq_of_beq hpred]
        exact List.mem_map_of_mem _ hcds
    · rw [find?_cons_neg (fun x => x.fileName == c.fileName) d ds
        (Bool.eq_false_iff.mpr hpred)]
      rcases List.mem_cons.mp hc with rfl | hcds
      · exact absurd (by simp) hpred
      · have := ih hnd hcds
        rw [findChunk] at this
        exact this

theorem flatImportListF_none (output : List Chunk) (fuel : Nat) :
    flatImportListF output fuel none = some [] := by
  cases fuel <;> rfl

theorem flatImportListF_zero (output : List Chunk) (c : Chunk) :
    flatImportListF output 0 (some c) = none := rfl

theorem flatF_succ_some {output : List Chunk} {fuel : Nat} {c : Chunk}
    {raw : List String}
    (h : flatImportListF output (fuel + 1) (some c) = some raw) :
    ∃ nested,
      mapConcat (fun imp => flatImportListF output fuel (findChunk output imp))
          c.imports = some nested
      ∧ raw = nested ++ [c.fileName] := by
  rw [flatImportListF] at h
  obtain ⟨nested, h1, h2⟩ := Option.map_eq_some'.mp h
  exact ⟨nested, h1, h2.symm⟩

theorem mapConcat_cons (f : String → Option (List String)) (x : String)
    (xs : List String) (r : List String) :
    mapConcat f (x :: xs) = some r ↔
      ∃ l ls, f x = some l ∧ mapConcat f xs = some ls ∧ r = l ++ ls := by
  rw [mapConcat]
  cases hfx : f x with
  | none => simp
  | some l =>
    cases hmc : mapConcat f xs with
    | none => simp
    | some ls =>
      simp only [Option.some.injEq]
      constructor
      · intro h
        exact ⟨l, ls, rfl, rfl, h.symm⟩
      · rintro ⟨l', ls', hl, hls, hr⟩
        cases hl
        cases hls
        exact hr.symm

theorem mapConcat_mem {f : String → Option (List String)} :
    ∀ {l r : List String} {x : String},
      mapConcat f l = some r → x ∈ r →
      ∃ a, a ∈ l ∧ ∃ ra, f a = some ra ∧ x ∈ ra := by
  intro l
  induction l with
  | nil =>
    intro r x h hx
    rw [mapConcat] at h
    cases h
    cases hx
  | cons b bs ih =>
    intro r x h hx
    obtain ⟨lb, ls, hfb, hmc, rfl⟩ := (mapConcat_cons f b bs r).mp h
    rcases List.mem_append.mp hx with hx | hx
    · exact ⟨b, List.mem_cons_self _ _, lb, hfb, hx⟩
    · obtain ⟨a, ha, ra, hra, hxa⟩ := ih hmc hx
      exact ⟨a, List.mem_cons_of_mem _ ha, ra, hra, hxa⟩

theorem mapConcat_piece {f : String → Option (List String)} :
    ∀ {l r : List String} {a : String},
      mapConcat f l = some r → a ∈ l →
      ∃ ra, f a = some ra ∧ ∀ x ∈ ra, x ∈ r := by
  intro l
  induction l with
  | nil => intro r a _ ha; cases ha
  | cons b bs ih =>
    intro r a h ha
    obtain ⟨lb, ls, hfb, hmc, rfl⟩ := (mapConcat_cons f b bs r).mp h
    rcases List.mem_cons.mp ha with rfl | ha
    · exact ⟨lb, hfb, fun x hx => List.mem_append_left _ hx⟩
    · obtain ⟨ra, hra, hsub⟩ := ih hmc ha
      exact ⟨ra, hra, fun x hx => List.mem_append_right _ (hsub x hx)⟩

theorem mapConcat_pres (P : List String → Prop) (hnil : P [])
    (happ : ∀ u v, P u → P v → P (u ++ v))
    {f : String → Option (List String)} :
    ∀ {l r : List String},
      (∀ a ∈ l, ∀ ra, f a = some ra → P ra) →
      mapConcat f l = some r → P r := by
  intro l
  induction l with
  | nil =>
    intro r _ h
    rw [mapConcat] at h
    cases h
    exact hnil
  | cons b bs ih =>
    intro r hf h
    obtain ⟨lb, ls, hfb, hmc, rfl⟩ := (mapConcat_cons f b bs r).mp h
    exact happ _ _ (hf b (List.mem_cons_self _ _) lb hfb)
      (ih (fun a ha => hf a (List.mem_cons_of_mem _ ha)) hmc)

/-- Every occurrence in the list is preceded by every resolving name it
transitively imports. -/
def GoodList (output : List Chunk) (raw : List String) : Prop :=
  ∀ l₁ x l₂, raw = l₁ ++ x :: l₂ →
    ∀ y, TransImports output x y → Resolves output y → y ∈ l₁

theorem goodList_nil (output : List Chunk) : GoodList output [] := by
  intro l₁ x l₂ h y _ _
  exfalso
  cases l₁ <;> simp at h

theorem goodList_append {output : List Chunk} {r₁ r₂ : List String}
    (h₁ : GoodList output r₁) (h₂ : GoodList output r₂) :
    GoodList output (r₁ ++ r₂) := by
  intro l₁ x l₂ heq y hti hres
  rcases List.append_eq_append_iff.mp heq with ⟨a', ha1, ha2⟩ | ⟨c', hc1, hc2⟩
  · rw [ha1]
    exact List.mem_append_right _ (h₂ a' x l₂ ha2 y hti hres)
  · cases c' with
    | nil =>
      have : r₂ = [] ++ x :: l₂ := by
        rw [List.nil_append]
        rw [List.nil_append] at hc2
        exact hc2.symm
      exact absurd (h₂ [] x l₂ this y hti hres) (List.not_mem_nil y)
    | cons z zs =>
      rw [List.cons_append] at hc2
      injection hc2 with hz hl2
      have : r₁ = l₁ ++ x :: zs := by rw [hc1, hz]
      exact h₁ l₁ x zs this y hti hres

theorem findChunk_mem {output : List Chunk} {n : String} {c : Chunk}
    (h : findChunk output n = some c) : c ∈ output := by
  rw [findChunk] at h
  exact List.mem_of_find?_eq_some h

theorem flat_resolves (output : List Chunk) :
    ∀ (fuel : Nat) (c : Chunk) (raw : List String),
      findChunk output c.fileName = some c →
      flatImportListF output fuel (some c) = some raw →
      ∀ x ∈ raw, Resolves output x := by
  intro fuel
  induction fuel with
  | zero =>
    intro c raw _ h
    rw [flatImportListF_zero] at h
    exact absurd h Option.noConfusion
  | succ fuel ih =>
    intro c raw hc h x hx
    obtain ⟨nested, hmc, rfl⟩ := flatF_succ_some h
    rcases List.mem_append.mp hx with hx | hx
    · obtain ⟨imp, _, ra, hra, hxa⟩ := mapConcat_mem hmc hx
      cases hfc : findChunk output imp with
      | none =>
        rw [hfc, flatImportListF_none] at hra
        cases hra
        cases hxa
      | some cb =>
        rw [hfc] at hra
        have hname : cb.fileName = imp := findChunk_fileName hfc
        exact ih cb ra (by rw [hname]; exact hfc) hra x hxa
    · have hxe : x = c.fileName := by
        cases hx with
        | head => rfl
        | tail _ h2 => cases h2
      rw [hxe]
      exact ⟨c, hc⟩

theorem flat_reach (output : List Chunk) :
    ∀ (fuel : Nat) (c : Chunk) (raw : List String),
      flatImportListF output fuel (some c) = some raw →
      ∀ x ∈ raw, x = c.fileName
        ∨ ∃ b, b ∈ c.imports
            ∧ Relation.ReflTransGen (DirectImports output) b x := by
  intro fuel
  induction fuel with
  | zero =>
    intro c raw h
    rw [flatImportListF_zero] at h
    exact absurd h Option.noConfusion
  | succ fuel ih =>
    intro c raw h x hx
    obtain ⟨nested, hmc, rfl⟩ := flatF_succ_some h
    rcases List.mem_append.mp hx with hx | hx
    · obtain ⟨imp, himp, ra, hra, hxa⟩ := mapConcat_mem hmc hx
      cases hfc : findChunk output imp with
      | none =>
        rw [hfc, flatImportListF_none] at hra
        cases hra
        cases hxa
      | some cb =>
        rw [hfc] at hra
        have hname : cb.fileName = imp := findChunk_fileName hfc
        rcases ih cb ra hra x hxa with heq | ⟨b', hb', hrtg⟩
        · refine Or.inr ⟨imp, himp, ?_⟩
          rw [heq, ← hname]
        · refine Or.inr ⟨imp, himp, ?_⟩
          exact Relation.ReflTransGen.head ⟨cb, hfc, hb'⟩ hrtg
    · left
      cases hx with
      | head => rfl
      | tail _ h2 => cases h2

theorem flat_complete (output : List Chunk) :
    ∀ (fuel : Nat) (c : Chunk) (raw : List String),
      findChunk output c.fileName = some c →
      flatImportListF output fuel (some c) = some raw →
      ∀ y, TransImports output c.fileName y → Resolves output y → y ∈ raw := by
  intro fuel
  induction fuel with
  | zero =>
    intro c raw _ h
    rw [flatImportListF_zero] at h
    exact absurd h Option.noConfusion
  | succ fuel ih =>
    intro c raw hc h y hti hres
    obtain ⟨nested, hmc, rfl⟩ := flatF_succ_some h
    obtain ⟨b, hab, hrtg⟩ := Relation.TransGen.head'_iff.mp hti
    obtain ⟨c', hc', hbc⟩ := hab
    rw [hc] at hc'
    injection hc' with hcc
    subst hcc
    obtain ⟨rb, hrb, hsub⟩ := mapConcat_piece hmc hbc
    rcases Relation.ReflTransGen.cases_head hrtg with rfl | ⟨z, hbz, hzy⟩
    · obtain ⟨cb, hcb⟩ := hres
      rw [hcb] at hrb
      cases fuel with
      | zero =>
        rw [flatImportListF_zero] at hrb
        exact absurd hrb Option.noConfusion
      | succ fuel2 =>
        obtain ⟨nb, _, rfl⟩ := flatF_succ_some hrb
        have hn : cb.fileName = b := findChunk_fileName hcb
        apply List.mem_append_left
        apply hsub
        rw [← hn]
        exact List.mem_append_right _ (List.mem_cons_self _ _)
    · obtain ⟨cb, hcb, hzc⟩ := hbz
      rw [hcb] at hrb
      have hname : cb.fileName = b := findChunk_fileName hcb
      have hself : findChunk output cb.fileName = some cb := by
        rw [hname]
        exact hcb
      have hti' : TransImports output cb.fileName y := by
        rw [hname]
        exact Relation.TransGen.head'_iff.mpr ⟨z, ⟨cb, hcb, hzc⟩, hzy⟩
      exact List.mem_append_left _ (hsub y (ih cb rb hself hrb y hti' hres))

theorem flat_good (output : List Chunk)
    (hacyc : ∀ n, ¬ TransImports output n n) :
    ∀ (fuel : Nat) (c : Chunk) (raw : List String),
      findChunk output c.fileName = some c →
      flatImportListF output fuel (some c) = some raw →
      GoodList output raw := by
  intro fuel
  induction fuel with
  | zero =>
    intro c raw _ h
    rw [flatImportListF_zero] at h
    exact absurd h Option.noConfusion
  | succ fuel ih =>
    intro c raw hc h
    obtain ⟨nested, hmc, rfl⟩ := flatF_succ_some h
    have hgood : GoodList output nested := by
      refine mapConcat_pres (GoodList output) (goodList_nil output)
        (fun u v hu hv => goodList_append hu hv) ?_ hmc
      intro a _ ra hra
      cases hfc : findChunk output a with
      | none =>
        rw [hfc, flatImportListF_none] at hra
        cases hra
        exact goodList_nil output
      | some cb =>
        rw [hfc] at hra
        have hname : cb.fileName = a := findChunk_fileName hfc
        exact ih cb ra (by rw [hname]; exact hfc) hra
    intro l₁ x l₂ heq y hti hres
    have hlast : x = c.fileName → l₁ = nested → y ∈ l₁ := by
      rintro rfl rfl
      have hmem := flat_complete output (fuel + 1) c _ hc h y hti hres
      rcases List.mem_append.mp hmem with hy | hy
      · exact hy
      · exfalso
        have hyx : y = c.fileName := by
          cases hy with
          | head => rfl
          | tail _ h2 => cases h2
        rw [hyx] at hti
        exact hacyc c.fileName hti
    rcases List.append_eq_append_iff.mp heq with ⟨a', ha1, ha2⟩ | ⟨c', hc1, hc2⟩
    · cases a' with
      | nil =>
        rw [List.nil_append] at ha2
        injection ha2 with h1 h2
        rw [List.append_nil] at ha1
        exact hlast h1.symm ha1
      | cons z zs =>
        rw [List.cons_append] at ha2
        injection ha2 with h1 h2
        exfalso
        cases zs <;> simp at h2
    · cases c' with
      | nil =>
        rw [List.append_nil] at hc1
        rw [List.nil_append] at hc2
        injection hc2 with h1 h2
        exact hlast h1 hc1.symm
      | cons z zs =>
        rw [List.cons_append] at hc2
        injection hc2 with h1 h2
        have hsp : nested = l₁ ++ x :: zs := by rw [hc1, h1]
        exact hgood l₁ x zs hsp y hti hres

theorem flat_entry_not_in_nested (output : List Chunk)
    (hacyc : ∀ n, ¬ TransImports output n n) (fuel : Nat) (c : Chunk)
    (nested : List String)
    (hc : findChunk output c.fileName = some c)
    (hmc : mapConcat
        (fun imp => flatImportListF output fuel (findChunk output imp))
        c.imports = some nested) :
    c.fileName ∉ nested := by
  intro hmem
  obtain ⟨imp, himp, ra, hra, hxa⟩ := mapConcat_mem hmc hmem
  cases hfc : findChunk output imp with
  | none =>
    rw [hfc, flatImportListF_none] at hra
    cases hra
    cases hxa
  | some cb =>
    rw [hfc] at hra
    have hname : cb.fileName = imp := findChunk_fileName hfc
    rcases flat_reach output fuel cb ra hra _ hxa with heq | ⟨b', hb', hrtg⟩
    · apply hacyc c.fileName
      apply Relation.TransGen.single
      refine ⟨c, hc, ?_⟩
      have himpc : imp = c.fileName := by rw [← hname, ← heq]
      rw [← himpc]
      exact himp
    · apply hacyc c.fileName
      refine Relation.TransGen.head ⟨c, hc, himp⟩ ?_
      exact Relation.TransGen.head'_iff.mpr ⟨b', ⟨cb, hfc, hb'⟩, hrtg⟩

theorem indexOf_lt_of_mem_take {l : List String} :
    ∀ {n : Nat} {y : String}, y ∈ l.take n → l.indexOf y < n := by
  induction l with
  | nil =>
    intro n y h
    rw [List.take_nil] at h
    cases h
  | cons a as ih =>
    intro n y h
    cases n with
    | zero =>
      rw [List.take_zero] at h
      cases h
    | succ n =>
      rw [List.take_succ_cons] at h
      by_cases hy : y = a
      · rw [hy, List.indexOf_cons_self]
        exact Nat.succ_pos n
      · rcases List.mem_cons.mp h with rfl | h2
        · exact absurd rfl hy
        · rw [List.indexOf_cons_ne _ (Ne.symm hy)]
          exact Nat.succ_lt_succ (ih h2)

/-- Claim C1: over an acyclic chunk graph with unique file names, the entry
dependency list — the load-order flattening of an entry chunk followed by the
first-occurrence deduplication — is topologically ordered: no name at index
`i` imports, directly or transitively, any name at an index greater than `i`,
and the entry chunk's own file name is the last element. -/
theorem flatImportList_topological (output : List Chunk) (fuel : Nat)
    (entryModuleID : String) (c₀ : Chunk) (raw : List String)
    (hnames : (output.map Chunk.fileName).Nodup)
    (hacyc : ∀ n, ¬ TransImports output n n)
    (hentry : findEntryChunk output entryModuleID = some c₀)
    (hrun : flatImportListF output fuel (some c₀) = some raw) :
    (∀ (i j : Fin (dedupFirst raw).length), i < j →
        ¬ TransImports output ((dedupFirst raw).get i) ((dedupFirst raw).get j))
    ∧ (dedupFirst raw).getLast? = some c₀.fileName := by
  have hc0mem : c₀ ∈ output := by
    rw [findEntryChunk] at hentry
    exact List.mem_of_find?_eq_some hentry
  have hc0 : findChunk output c₀.fileName = some c₀ := findChunk_self hnames hc0mem
  constructor
  · intro i j hij hti
    have hgood : GoodList output raw := flat_good output hacyc fuel c₀ raw hc0 hrun
    have hxmem : (dedupFirst raw).get i ∈ raw :=
      mem_dedupFirst.mp (List.get_mem _ _ _)
    have hymem : (dedupFirst raw).get j ∈ raw :=
      mem_dedupFirst.mp (List.get_mem _ _ _)
    have hres : Resolves output ((dedupFirst raw).get j) :=
      flat_resolves output fuel c₀ raw hc0 hrun _ hymem
    have hlt : raw.indexOf ((dedupFirst raw).get i)
        < raw.indexOf ((dedupFirst raw).get j) :=
      List.pairwise_iff_get.mp (dedupFirst_pairwise raw) i j hij
    have hp : raw.indexOf ((dedupFirst raw).get i) < raw.length :=
      List.indexOf_lt_length.mpr hxmem
    have hget : raw[raw.indexOf ((dedupFirst raw).get i)]
        = (dedupFirst raw).get i := List.getElem_indexOf hp
    have hdrop : raw.drop (raw.indexOf ((dedupFirst raw).get i))
        = (dedupFirst raw).get i
            :: raw.drop (raw.indexOf ((dedupFirst raw).get i) + 1) := by
      rw [← List.getElem_cons_drop raw _ hp, hget]
    have hsplit : raw = raw.take (raw.indexOf ((dedupFirst raw).get i))
        ++ (dedupFirst raw).get i
            :: raw.drop (raw.indexOf ((dedupFirst raw).get i) + 1) := by
      conv_lhs =>
        rw [← List.take_append_drop (raw.indexOf ((dedupFirst raw).get i)) raw]
      rw [hdrop]
    have hy1 := hgood _ _ _ hsplit _ hti hres
    have hy2 := indexOf_lt_of_mem_take hy1
    omega
  · cases fuel with
    | zero =>
      rw [flatImportListF_zero] at hrun
      exact absurd hrun Option.noConfusion
    | succ fuel =>
      obtain ⟨nested, hmc, rfl⟩ := flatF_succ_some hrun
      have hnotin := flat_entry_not_in_nested output hacyc fuel c₀ nested hc0 hmc
      rw [dedupFirst, dedupFirstAux_append_singleton hnotin (List.not_mem_nil _)]
      exact List.getLast?_concat _

theorem transGen_no_sink {α : Type} {r : α → α → Prop} {a : α}
    (h : ∀ m, ¬ r m a) : ∀ b, ¬ Relation.TransGen r b a := by
  intro b hb
  cases hb with
  | single h1 => exact h _ h1
  | tail _ h1 => exact h _ h1

theorem exampleGraph_edge {x y : String}
    (h : DirectImports [⟨"b.js", [], none⟩, ⟨"a.js", ["b.js"], some "A"⟩] x y) :
    x = "a.js" ∧ y = "b.js" := by
  obtain ⟨c, hfc, hmem⟩ := h
  have hcmem := findChunk_mem hfc
  have hname := findChunk_fileName hfc
  rcases List.mem_cons.mp hcmem with rfl | hcmem
  · exact absurd hmem (List.not_mem_nil y)
  · rcases List.mem_cons.mp hcmem with rfl | hcmem
    · refine ⟨hname.symm, ?_⟩
      rcases List.mem_cons.mp hmem with rfl | h2
      · rfl
      · cases h2
    · cases hcmem

theorem exampleGraph_acyclic :
    ∀ n, ¬ TransImports [⟨"b.js", [], none⟩, ⟨"a.js", ["b.js"], some "A"⟩] n n := by
  intro n hn
  cases hn with
  | single h1 =>
    obtain ⟨h1a, h1b⟩ := exampleGraph_edge h1
    rw [h1a] at h1b
    exact absurd h1b (by decide)
  | tail hb h1 =>
    obtain ⟨h1a, h1b⟩ := exampleGraph_edge h1
    rw [h1a] at hb
    rw [h1b] at hb
    refine transGen_no_sink ?_ _ hb
    intro m hm
    obtain ⟨_, hm2⟩ := exampleGraph_edge hm
    exact absurd hm2 (by decide)

/-- Witness for C1 at a concrete two-chunk graph. -/
theorem flatImportList_topological_witness :
    (([⟨"b.js", [], none⟩, ⟨"a.js", ["b.js"], some "A"⟩] : List Chunk).map
        Chunk.fileName).Nodup
    ∧ (∀ n, ¬ TransImports [⟨"b.js", [], none⟩, ⟨"a.js", ["b.js"], some "A"⟩] n n)
    ∧ findEntryChunk [⟨"b.js", [], none⟩, ⟨"a.js", ["b.js"], some "A"⟩] "A"
        = some ⟨"a.js", ["b.js"], some "A"⟩
    ∧ flatImportListF [⟨"b.js", [], none⟩, ⟨"a.js", ["b.js"], some "A"⟩] 2
        (some ⟨"a.js", ["b.js"], some "A"⟩) = some ["b.js", "a.js"]
    ∧ ((∀ (i j : Fin (dedupFirst ["b.js", "a.js"]).length), i < j →
          ¬ TransImports [⟨"b.js", [], none⟩, ⟨"a.js", ["b.js"], some "A"⟩]
              ((dedupFirst ["b.js", "a.js"]).get i)
              ((dedupFirst ["b.js", "a.js"]).get j))
        ∧ (dedupFirst ["b.js", "a.js"]).getLast? = some "a.js") :=
  ⟨by decide, exampleGraph_acyclic, by decide, by decide,
    flatImportList_topological
      [⟨"b.js", [], none⟩, ⟨"a.js", ["b.js"], some "A"⟩] 2 "A"
      ⟨"a.js", ["b.js"], some "A"⟩ ["b.js", "a.js"]
      (by decide) exampleGraph_acyclic (by decide) (by decide)⟩

/-! ## Export-slot initialization of the scope rewriter -/

/-- Values of the fragment of Javascript the export-slot template touches:
a global slot is either still `undefined` or holds an object, identified
here by an allocation id. -/
inductive JSValue where
  | undefined
  | object (id : Nat)
  deriving DecidableEq, Repr

/-- Javascript truthiness for those values: `undefined` is falsy and every
object is truthy. -/
def truthy : JSValue → Bool
  | .undefined => false
  | .object _ => true

/-- Evaluation of the argument expression `exportArgumentTemplate`
(src/src/babelPlugin.js lines 58-60) generates for each chunk that has
exports (pushed as the first IIFE argument by the Program exit visitor,
lines 97-102): `this.MODULE_ID = this.MODULE_ID || {}`, run against the
shared global scope.  Reading `this.MODULE_ID` yields the slot's current
value; `||` keeps that value when it is truthy and otherwise produces a
fresh empty object (identified by `freshId`); the assignment stores the
picked value back into the slot, and the whole expression evaluates to it. -/
def exportArgumentTemplate (scope : String → JSValue) (moduleId : String)
    (freshId : Nat) : JSValue × (String → JSValue) :=
  (if truthy (scope moduleId) then scope moduleId else JSValue.object freshId,
   fun n =>
     if n = moduleId then
       if truthy (scope moduleId) then scope moduleId else JSValue.object freshId
     else scope n)

/-- Claim C7: when a chunk's global slot already holds a value at the moment
the rewritten code runs, the slot-initialization expression reuses that
value: the expression evaluates to the existing value, the slot keeps it,
and no other binding of the shared scope changes — so re-executing or
reordering the rewritten code never clobbers previously stored exports. -/
theorem exportArgumentTemplate_reuses (scope : String → JSValue)
    (moduleId : String) (freshId : Nat)
    (h : truthy (scope moduleId) = true) :
    (exportArgumentTemplate scope moduleId freshId).1 = scope moduleId
    ∧ (exportArgumentTemplate scope moduleId freshId).2 moduleId = scope moduleId
    ∧ ∀ n, n ≠ moduleId →
        (exportArgumentTemplate scope moduleId freshId).2 n = scope n := by
  refine ⟨?_, ?_, ?_⟩
  · simp [exportArgumentTemplate, h]
  · simp [exportArgumentTemplate, h]
  · intro n hn
    simp [exportArgumentTemplate, h, hn]

/-- Witness for C7 at a concrete scope in which the slot holds an object. -/
theorem exportArgumentTemplate_reuses_witness :
    truthy ((fun n => if n = "__EXBY_MODULE__index_js__" then JSValue.object 1
        else JSValue.undefined) "__EXBY_MODULE__index_js__") = true
    ∧ ((exportArgumentTemplate
          (fun n => if n = "__EXBY_MODULE__index_js__" then JSValue.object 1
            else JSValue.undefined) "__EXBY_MODULE__index_js__" 7).1
        = (fun n => if n = "__EXBY_MODULE__index_js__" then JSValue.object 1
            else JSValue.undefined) "__EXBY_MODULE__index_js__"
      ∧ (exportArgumentTemplate
          (fun n => if n = "__EXBY_MODULE__index_js__" then JSValue.object 1
            else JSValue.undefined) "__EXBY_MODULE__index_js__" 7).2
            "__EXBY_MODULE__index_js__"
        = (fun n => if n = "__EXBY_MODULE__index_js__" then JSValue.object 1
            else JSValue.undefined) "__EXBY_MODULE__index_js__"
      ∧ ∀ n, n ≠ "__EXBY_MODULE__index_js__" →
          (exportArgumentTemplate
            (fun n => if n = "__EXBY_MODULE__index_js__" then JSValue.object 1
              else JSValue.undefined) "__EXBY_MODULE__index_js__" 7).2 n
          = (fun n => if n = "__EXBY_MODULE__index_js__" then JSValue.object 1
              else JSValue.undefined) n) :=
  ⟨rfl, exportArgumentTemplate_reuses
    (fun n => if n = "__EXBY_MODULE__index_js__" then JSValue.object 1
      else JSValue.undefined) "__EXBY_MODULE__index_js__" 7 rfl⟩

/-! ## The single-output check of the IIFE transform -/

/-- The free identifiers referenced by the error-message template at
src/bin/exby.js line 221:
`IIFE build of ${chunkId} generated ${iifeOutput.length} outputs`. -/
def iifeErrorTemplateRefs : List String := ["chunkId", "iifeOutput"]

/-- Every identifier bound in scope at that throw site, transcribed from
src/bin/exby.js: the module-level declarations (lines 3-20), the bindings of
the async main function (lines 39-73 and the hoisted declarations at lines
77, 164, 232, 237), and the bindings of the chunk loop body
(lines 165-210). -/
def iifeThrowSiteScope : List String :=
  ["path", "fs", "yargs", "rollup", "nodeResolve", "commonjs", "pathExists",
   "varNameCache", "globalExportsVariableName", "argv", "manifestPath",
   "stats", "outputPath", "manifest", "entryPoints", "codeSplitBundle",
   "codeSplitOutput", "outputFiles", "chunk", "iifeBundle", "iifeOutput",
   "flatImportList", "dependencyMap"]

/-- The error message the template at line 221 was evidently meant to build
for a chunk whose IIFE transform yields `n` physical outputs. -/
def intendedIifeErrorMessage (chunkFileName : String) (n : Nat) : String :=
  "IIFE build of " ++ chunkFileName ++ " generated " ++ toString n ++ " outputs"

/-- Claim C8 (code bug): the intended message does include the chunk's file
name, but the template as written references the identifier `chunkId`, which
is bound nowhere in the script — so although a multi-output chunk still
aborts the build (throwing from the loop rejects the whole async run), the
error actually raised is `ReferenceError: chunkId is not defined`, whose
message does not contain the chunk's file name. -/
theorem iife_error_references_unbound_chunkId :
    "chunkId" ∈ iifeErrorTemplateRefs
    ∧ "chunkId" ∉ iifeThrowSiteScope
    ∧ ∀ (fn : String) (n : Nat), ∃ p s,
        (intendedIifeErrorMessage fn n).data = p ++ (fn.data ++ s) := by
  refine ⟨by decide, by decide, ?_⟩
  intro fn n
  refine ⟨("IIFE build of " : String).data,
    (" generated " ++ toString n ++ " outputs" : String).data, ?_⟩
  rw [intendedIifeErrorMessage]
  simp [String.data_append, List.append_assoc]

end Exby
